import Mathlib

/-!
Verification development for the game-theory-labs repository.

The development shallowly embeds the core algorithmic components:

* the Brown-Robinson fictitious-play solver
  (crates/brown_robinson_method/src/lib.rs and iter.rs),
* the analytical zero-sum game solver
  (crates/game_theory/src/zero_sum/mod.rs),
* the continuous convex-concave discretization driver
  (crates/continuous_convex_concave_method/src/iter.rs).

Scalar values (Rust f64, with the data-model invariant that all payoffs are
finite and non-NaN) are embedded as exact rationals; machine-size integers
(usize) are embedded as naturals with explicit bounds checks where the code
performs checked arithmetic.  Randomness (the initial strategy draw and the
tie-breaking draw of the solver) is embedded by passing the drawn values as
explicit parameters, so every theorem quantifies over all possible draws.
Panics of the Rust code are embedded as an Option-valued result being none.
-/

namespace GameTheoryLabs

/-- Maximum entry of a vector with at least one entry.
Models nalgebra's Matrix::max on a 1×N row vector, N ≥ 1. -/
def vecMax {n : ℕ} (v : Fin (n + 1) → ℚ) : ℚ :=
  Finset.univ.sup' Finset.univ_nonempty v

/-- Minimum entry of a vector with at least one entry.
Models nalgebra's Matrix::min on a 1×N row vector, N ≥ 1. -/
def vecMin {n : ℕ} (v : Fin (n + 1) → ℚ) : ℚ :=
  Finset.univ.inf' Finset.univ_nonempty v

/-- One output record of the Brown-Robinson iterator.
Embeds struct BrownRobinsonRow of crates/brown_robinson_method/src/lib.rs. -/
structure BrownRobinsonRow (n : ℕ) where
  iteration : ℕ
  a_strategy : Fin n
  b_strategy : Fin n
  a_score : Fin n → ℚ
  b_score : Fin n → ℚ
  high_price : ℚ
  low_price : ℚ
  epsilon : ℚ

/-- The state of the Brown-Robinson solver over an n×n game matrix.
Embeds struct BrownRobinson of crates/brown_robinson_method/src/lib.rs. -/
structure BrownRobinson (n : ℕ) where
  game : Fin n → Fin n → ℚ
  a_strategy : Fin n
  b_strategy : Fin n
  a_scores : Fin n → ℚ
  b_scores : Fin n → ℚ
  min_high_price : ℚ
  max_low_price : ℚ
  a_strategy_times_used : Fin n → ℕ
  b_strategy_times_used : Fin n → ℕ
  k : ℕ

/-- Constructor BrownRobinson::new (lib.rs lines 62-98).  The two random
draws thread_rng().gen_range(0..nrows) and ..ncols are passed in as the
explicit indices a_strategy and b_strategy.  Note that the source sets
a_scores from the matrix COLUMN indexed by a_strategy (transposed to a row
vector) and b_scores from the matrix ROW indexed by b_strategy. -/
def BrownRobinson.new {n : ℕ} (game_matrix : Fin (n + 1) → Fin (n + 1) → ℚ)
    (a_strategy b_strategy : Fin (n + 1)) : BrownRobinson (n + 1) :=
  let a_scores : Fin (n + 1) → ℚ := fun i => game_matrix i a_strategy
  let b_scores : Fin (n + 1) → ℚ := fun j => game_matrix b_strategy j
  { game := game_matrix
    a_strategy := a_strategy
    b_strategy := b_strategy
    a_scores := a_scores
    b_scores := b_scores
    min_high_price := vecMax a_scores
    max_low_price := vecMin b_scores
    a_strategy_times_used := Function.update (fun _ => 0) a_strategy 1
    b_strategy_times_used := Function.update (fun _ => 0) b_strategy 1
    k := 0 }

/-- Fallible construction: models the fact that BrownRobinson::new panics
(inside gen_range, whose range 0..nrows is then empty) exactly when the
matrix is empty; the panic is embedded as none.  A non-square matrix is
unrepresentable, as in the source, where the type Matrix of new's argument
enforces squareness statically.  The naturals da and db are the two random
draws, reduced modulo the dimension to index draws as gen_range does. -/
def BrownRobinson.try_new (n : ℕ) (g : Fin n → Fin n → ℚ) (da db : ℕ) :
    Option (BrownRobinson n) :=
  match n, g with
  | 0, _ => none
  | m + 1, g =>
    some (BrownRobinson.new g ⟨da % (m + 1), Nat.mod_lt da m.succ_pos⟩
      ⟨db % (m + 1), Nat.mod_lt db m.succ_pos⟩)

/-- BrownRobinson::high_price (lib.rs lines 160-166): max of a_scores. -/
def BrownRobinson.high_price {n : ℕ} (s : BrownRobinson (n + 1)) : ℚ :=
  vecMax s.a_scores

/-- BrownRobinson::low_price (lib.rs lines 168-174): min of b_scores. -/
def BrownRobinson.low_price {n : ℕ} (s : BrownRobinson (n + 1)) : ℚ :=
  vecMin s.b_scores

/-- The support of the random selection made by BrownRobinson::next_strategies
(iter.rs lines 18-60): a pair of indices may be selected exactly when the
first attains the maximum of a_scores and the second the minimum of
b_scores (the source draws uniformly among all tied indices). -/
def BrownRobinson.chooses {n : ℕ} (s : BrownRobinson (n + 1))
    (ca cb : Fin (n + 1)) : Prop :=
  s.a_scores ca = vecMax s.a_scores ∧ s.b_scores cb = vecMin s.b_scores

/-- One step of the solver: Iterator::next for BrownRobinson
(iter.rs lines 70-107).  The random tie-breaking choices of
next_strategies are passed in as ca and cb (they are ignored by the
source on the initial iteration k = 1, which selects nothing).  The
source returns Option and every path ends in Some; the returned pair is
the yielded row together with the mutated state. -/
def BrownRobinson.next {n : ℕ} (s : BrownRobinson (n + 1)) (ca cb : Fin (n + 1)) :
    Option (BrownRobinsonRow (n + 1) × BrownRobinson (n + 1)) :=
  let k := s.k + 1
  if k = 1 then
    let s' : BrownRobinson (n + 1) := { s with k := k }
    some ({ iteration := k
            a_strategy := s'.a_strategy
            b_strategy := s'.b_strategy
            a_score := s'.a_scores
            b_score := s'.b_scores
            high_price := s'.high_price
            low_price := s'.low_price
            epsilon := s'.min_high_price - s'.max_low_price }, s')
  else
    let a_scores : Fin (n + 1) → ℚ := fun i => s.a_scores i + s.game i cb
    let b_scores : Fin (n + 1) → ℚ := fun j => s.b_scores j + s.game ca j
    let high_price := vecMax a_scores / (k : ℚ)
    let low_price := vecMin b_scores / (k : ℚ)
    let min_high_price := min s.min_high_price high_price
    let max_low_price := max s.max_low_price low_price
    let s' : BrownRobinson (n + 1) :=
      { s with
        k := k
        a_strategy := ca
        b_strategy := cb
        a_strategy_times_used :=
          Function.update s.a_strategy_times_used ca
            (s.a_strategy_times_used ca + 1)
        b_strategy_times_used :=
          Function.update s.b_strategy_times_used cb
            (s.b_strategy_times_used cb + 1)
        a_scores := a_scores
        b_scores := b_scores
        min_high_price := min_high_price
        max_low_price := max_low_price }
    some ({ iteration := k
            a_strategy := ca
            b_strategy := cb
            a_score := a_scores
            b_score := b_scores
            high_price := high_price
            low_price := low_price
            epsilon := min_high_price - max_low_price }, s')

/-- Runs the solver for a list of steps, each with its pair of random
tie-breaking draws, returning the final state. -/
def BrownRobinson.run {n : ℕ} (s : BrownRobinson (n + 1)) :
    List (Fin (n + 1) × Fin (n + 1)) → BrownRobinson (n + 1)
  | [] => s
  | c :: cs =>
    match s.next c.1 c.2 with
    | some (_, s') => BrownRobinson.run s' cs
    | none => s

/-- BrownRobinson::bounds (lib.rs lines 100-122): the classical pure
lower and upper prices of the ORIGINAL matrix: max over rows of each
row's minimum and min over columns of each column's maximum.  The NotNan
wrappers of the source are identities here, as rationals have no NaN. -/
def BrownRobinson.bounds {n : ℕ} (s : BrownRobinson (n + 1)) : ℚ × ℚ :=
  (vecMax fun i => vecMin fun j => s.game i j,
   vecMin fun j => vecMax fun i => s.game i j)

/-- BrownRobinson::min_max_prices (lib.rs lines 129-132). -/
def BrownRobinson.min_max_prices {n : ℕ} (s : BrownRobinson (n + 1)) : ℚ × ℚ :=
  (s.max_low_price, s.min_high_price)

/-- BrownRobinson::price_estimation (lib.rs lines 134-141). -/
def BrownRobinson.price_estimation {n : ℕ} (s : BrownRobinson (n + 1)) : ℚ :=
  (s.max_low_price + s.min_high_price) / 2

/-- BrownRobinson::strategies_used (lib.rs lines 148-158). -/
def BrownRobinson.strategies_used {n : ℕ} (s : BrownRobinson (n + 1)) :
    (Fin (n + 1) → ℕ) × (Fin (n + 1) → ℕ) :=
  (s.a_strategy_times_used, s.b_strategy_times_used)

/-! ### The analytical zero-sum solver (crates/game_theory/src/zero_sum/mod.rs) -/

/-- The augmented matrix of SolveGame::solve_game (zero_sum/mod.rs lines
123-132): append a row of 1s below the matrix, then a column of -1s to the
right, then set the final element of the column-major iteration (the
bottom-right corner) to 0. -/
def augment {n : ℕ} (M : Matrix (Fin n) (Fin n) ℚ) :
    Matrix (Fin (n + 1)) (Fin (n + 1)) ℚ :=
  Matrix.of fun i j =>
    if hi : (i : ℕ) < n then
      if hj : (j : ℕ) < n then M ⟨i, hi⟩ ⟨j, hj⟩ else -1
    else if (j : ℕ) < n then 1 else 0

/-- The right-hand side of solve_game (zero_sum/mod.rs lines 134-138):
all zeros except a 1 as the last value. -/
def unitLast (n : ℕ) : Fin (n + 1) → ℚ :=
  fun i => if i = Fin.last n then 1 else 0

/-- The linear solve of zero_sum/mod.rs lines 144-165.  The source uses
nalgebra's QR decomposition, whose solve_mut succeeds exactly when the
matrix is nonsingular (in exact arithmetic); the unique solution is then
given by Cramer's rule, x = adjugate(a)·b / det(a). -/
def solveLin {m : ℕ} (a : Matrix (Fin m) (Fin m) ℚ) (b : Fin m → ℚ) :
    Option (Fin m → ℚ) :=
  if a.det = 0 then none else some fun i => a.adjugate.mulVec b i / a.det

/-- SolveGame::solve_game (zero_sum/mod.rs lines 110-142). -/
def solve_game {n : ℕ} (M : Matrix (Fin n) (Fin n) ℚ) : Option (Fin (n + 1) → ℚ) :=
  solveLin (augment M) (unitLast n)

/-- The outcome of Game::solve_analytically, with the unreachable!() panic
kept as an explicit third outcome, distinct from the normal no-solution
result. -/
inductive AnalyticResult (n : ℕ) where
  | solved (a b : Fin (n + 1) → ℚ)
  | noSolution
  | panicked

/-- Game::solve_analytically (zero_sum/mod.rs lines 41-61): solve the
augmented system built from the transposed matrix (player A's strategy) and
from the matrix itself (player B's); Some/Some yields both, None/None is
the no-solution outcome, and a mixed pair hits unreachable!(). -/
def solve_analytically {n : ℕ} (M : Matrix (Fin n) (Fin n) ℚ) : AnalyticResult n :=
  match solve_game M.transpose, solve_game M with
  | some a, some b => .solved a b
  | none, none => .noSolution
  | _, _ => .panicked

/-! ### The discretization driver (crates/continuous_convex_concave_method) -/

/-- The addressable size of usize on the 64-bit targets the labs build for. -/
def USIZE : ℕ := 2 ^ 64

/-- usize::checked_add: none models the overflow case. -/
def checked_add (a b : ℕ) : Option ℕ :=
  if a + b < USIZE then some (a + b) else none

/-- usize::checked_mul: none models the overflow case. -/
def checked_mul (a b : ℕ) : Option ℕ :=
  if a * b < USIZE then some (a * b) else none

/-- The continuous kernel H(x, y) = ax² + by² + cxy + dx + ey
(crates/continuous_convex_concave_method/src/lib.rs lines 20-30), its five
coefficients in order. -/
structure ContinuousConvexConcaveGame where
  a : ℚ
  b : ℚ
  c : ℚ
  d : ℚ
  e : ℚ
deriving DecidableEq

/-- ContinuousConvexConcaveGame::compute (lib.rs lines 33-45). -/
def ContinuousConvexConcaveGame.compute (g : ContinuousConvexConcaveGame)
    (x y : ℚ) : ℚ :=
  g.a * x * x + g.b * y * y + g.c * x * y + g.d * x + g.e * y

/-- One yielded element of the driver: struct State of
continuous_convex_concave_method/src/iter.rs lines 25-30. -/
structure DriverState where
  x : ℚ
  y : ℚ
  price : ℚ
deriving DecidableEq

/-- struct WindowElement of iter.rs lines 32-36. -/
structure WindowElement where
  delta : ℚ
  state : DriverState
deriving DecidableEq

/-- struct Iter of iter.rs lines 10-23: the driver state.  The window is a
list whose head is the oldest element (VecDeque front); window_size models
the NonZeroUsize parameter. -/
structure Iter where
  game : ContinuousConvexConcaveGame
  accuracy : ℚ
  window_size : ℕ
  window : List WindowElement
  n : ℕ
  previous_price : Option ℚ
  price : ℚ
  sum_delta : ℚ
deriving DecidableEq

/-- Iter::new (iter.rs lines 38-56). -/
def Iter.new (game : ContinuousConvexConcaveGame) (accuracy : ℚ)
    (window_size : ℕ) : Iter :=
  { game := game
    accuracy := accuracy
    window_size := window_size
    window := []
    n := 1
    previous_price := none
    price := 0
    sum_delta := 0 }

/-- Iter::current_game (iter.rs lines 70-88): computes dimension = n + 1,
checks that dimension * dimension does not overflow usize BEFORE building
the matrix (the expect on checked_mul; a failed check is a panic, embedded
as none), then builds the (n+1)×(n+1) matrix with entry (i, j) equal to
H(i/n, j/n).  The unchecked usize addition n + 1 is embedded with Rust's
overflow-checking semantics (overflow on + is a program error, a panic,
never a silent wrap). -/
def Iter.current_game (it : Iter) : Option (ℕ × (ℕ → ℕ → ℚ)) :=
  match checked_add it.n 1 with
  | none => none
  | some dimension =>
    match checked_mul dimension dimension with
    | none => none
    | some _ =>
      some (dimension,
        fun i j => it.game.compute ((i : ℚ) / (it.n : ℚ)) ((j : ℚ) / (it.n : ℚ)))

/-- Iterator::next for Iter (iter.rs lines 92-189).  The per-step estimate
computation (lines 112-157: discretize via current_game, return the saddle
point if the discrete lower and upper prices coincide, otherwise run the
Brown-Robinson solver until its epsilon drops below accuracy) is abstracted
by the oracle argument, the estimate produced for refinement level n; the
saddle branch is deterministic but the Brown-Robinson branch depends on the
solver's random draws, and claims about the windowed stopping rule hold for
every such sequence of estimates.  Panics (the checked_add expect on n, and
the pop_front expect) are embedded as a none result; a some (none, s) result
is the iterator yielding end-of-sequence None with post-state s, and
some (some item, s) is the iterator yielding an element. -/
def Iter.next (oracle : ℕ → DriverState) (it : Iter) :
    Option (Option DriverState × Iter) :=
  match checked_add it.n 1 with
  | none => none
  | some n' =>
    let it := { it with n := n' }
    if it.window = [] ∨ it.accuracy < it.sum_delta then
      let est := oracle n'
      let price := est.price
      let it := { it with price := price }
      match it.previous_price with
      | none =>
        some (some ⟨est.x, est.y, price⟩, { it with previous_price := some price })
      | some prev =>
        let popped : Option (List WindowElement × ℚ) :=
          if it.window.length = it.window_size then
            match it.window, it.sum_delta with
            | [], _ => none
            | w :: rest, sum_delta => some (rest, sum_delta - w.delta)
          else some (it.window, it.sum_delta)
        match popped with
        | none => none
        | some (window, sum_delta) =>
          let delta := |price - prev|
          some (some ⟨est.x, est.y, price⟩,
            { it with
              window := window ++ [⟨delta, ⟨est.x, est.y, price⟩⟩]
              sum_delta := sum_delta + delta
              previous_price := some price })
    else
      some (none, it)

/-- Advances the driver through a number of calls to next, returning the
final state; none if any call panicked. -/
def Iter.runState (oracle : ℕ → DriverState) : ℕ → Iter → Option Iter
  | 0, it => some it
  | steps + 1, it =>
    match it.next oracle with
    | some (_, it') => Iter.runState oracle steps it'
    | none => none

/-- Total version of one solver step: BrownRobinson's next always returns
Some, so the step is recovered from it with an irrelevant fallback. -/
def BrownRobinson.step {n : ℕ} (s : BrownRobinson (n + 1)) (ca cb : Fin (n + 1)) :
    BrownRobinsonRow (n + 1) × BrownRobinson (n + 1) :=
  (s.next ca cb).getD
    ({ iteration := 0
       a_strategy := s.a_strategy
       b_strategy := s.b_strategy
       a_score := s.a_scores
       b_score := s.b_scores
       high_price := 0
       low_price := 0
       epsilon := 0 }, s)

/-! ### Helper lemmas -/

theorem le_vecMax {n : ℕ} (v : Fin (n + 1) → ℚ) (i : Fin (n + 1)) :
    v i ≤ vecMax v :=
  Finset.le_sup' v (Finset.mem_univ i)

theorem vecMin_le {n : ℕ} (v : Fin (n + 1) → ℚ) (i : Fin (n + 1)) :
    vecMin v ≤ v i :=
  Finset.inf'_le v (Finset.mem_univ i)

theorem maxmin_le_minmax {n : ℕ} (g : Fin (n + 1) → Fin (n + 1) → ℚ) :
    (vecMax fun i => vecMin fun j => g i j) ≤ vecMin fun j => vecMax fun i => g i j := by
  apply Finset.sup'_le
  intro i _
  apply Finset.le_inf'
  intro j _
  exact le_trans (vecMin_le (fun j' => g i j') j) (le_vecMax (fun i' => g i' j) i)

theorem BrownRobinson.next_eq_step {n : ℕ} (s : BrownRobinson (n + 1))
    (ca cb : Fin (n + 1)) : s.next ca cb = some (s.step ca cb) := by
  unfold BrownRobinson.step BrownRobinson.next
  dsimp only
  split <;> rfl

theorem BrownRobinson.step_k {n : ℕ} (s : BrownRobinson (n + 1)) (ca cb : Fin (n + 1)) :
    (s.step ca cb).2.k = s.k + 1 := by
  unfold BrownRobinson.step BrownRobinson.next
  dsimp only
  split <;> rfl

theorem BrownRobinson.step_game {n : ℕ} (s : BrownRobinson (n + 1)) (ca cb : Fin (n + 1)) :
    (s.step ca cb).2.game = s.game := by
  unfold BrownRobinson.step BrownRobinson.next
  dsimp only
  split <;> rfl

theorem BrownRobinson.step_min_high_le {n : ℕ} (s : BrownRobinson (n + 1))
    (ca cb : Fin (n + 1)) : (s.step ca cb).2.min_high_price ≤ s.min_high_price := by
  unfold BrownRobinson.step BrownRobinson.next
  dsimp only
  split
  · exact le_refl _
  · exact min_le_left _ _

theorem BrownRobinson.step_max_low_ge {n : ℕ} (s : BrownRobinson (n + 1))
    (ca cb : Fin (n + 1)) : s.max_low_price ≤ (s.step ca cb).2.max_low_price := by
  unfold BrownRobinson.step BrownRobinson.next
  dsimp only
  split
  · exact le_refl _
  · exact le_max_left _ _

theorem BrownRobinson.step_epsilon {n : ℕ} (s : BrownRobinson (n + 1))
    (ca cb : Fin (n + 1)) :
    (s.step ca cb).1.epsilon =
      (s.step ca cb).2.min_high_price - (s.step ca cb).2.max_low_price := by
  unfold BrownRobinson.step BrownRobinson.next
  dsimp only
  split <;> rfl

theorem sum_update_succ {n : ℕ} (f : Fin n → ℕ) (i : Fin n) :
    Finset.univ.sum (Function.update f i (f i + 1)) = Finset.univ.sum f + 1 := by
  rw [Finset.sum_update_of_mem (Finset.mem_univ i), Finset.sdiff_singleton_eq_erase,
    ← Finset.add_sum_erase _ f (Finset.mem_univ i)]
  ring

theorem sum_update_single {n : ℕ} (i : Fin n) :
    Finset.univ.sum (Function.update (fun _ : Fin n => 0) i 1) = 1 := by
  rw [Finset.sum_update_of_mem (Finset.mem_univ i)]
  simp

theorem BrownRobinson.step_sum_a {n : ℕ} (s : BrownRobinson (n + 1)) (ca cb : Fin (n + 1)) :
    Finset.univ.sum (s.step ca cb).2.a_strategy_times_used =
      if s.k = 0 then Finset.univ.sum s.a_strategy_times_used
      else Finset.univ.sum s.a_strategy_times_used + 1 := by
  unfold BrownRobinson.step BrownRobinson.next
  dsimp only
  split
  · rename_i h
    have hz : s.k = 0 := by omega
    simp [hz]
  · rename_i h
    have hz : ¬s.k = 0 := by omega
    simp [hz, sum_update_succ]

theorem BrownRobinson.step_sum_b {n : ℕ} (s : BrownRobinson (n + 1)) (ca cb : Fin (n + 1)) :
    Finset.univ.sum (s.step ca cb).2.b_strategy_times_used =
      if s.k = 0 then Finset.univ.sum s.b_strategy_times_used
      else Finset.univ.sum s.b_strategy_times_used + 1 := by
  unfold BrownRobinson.step BrownRobinson.next
  dsimp only
  split
  · rename_i h
    have hz : s.k = 0 := by omega
    simp [hz]
  · rename_i h
    have hz : ¬s.k = 0 := by omega
    simp [hz, sum_update_succ]

theorem BrownRobinson.run_game {n : ℕ} (s : BrownRobinson (n + 1))
    (cs : List (Fin (n + 1) × Fin (n + 1))) : (s.run cs).game = s.game := by
  induction cs generalizing s with
  | nil => rfl
  | cons c cs ih =>
    simp only [BrownRobinson.run, BrownRobinson.next_eq_step]
    exact (ih (s.step c.1 c.2).2).trans (BrownRobinson.step_game s c.1 c.2)

theorem BrownRobinson.run_k {n : ℕ} (cs : List (Fin (n + 1) × Fin (n + 1)))
    (s : BrownRobinson (n + 1)) : (s.run cs).k = s.k + cs.length := by
  induction cs generalizing s with
  | nil => rfl
  | cons c cs ih =>
    simp only [BrownRobinson.run, BrownRobinson.next_eq_step]
    rw [ih (s.step c.1 c.2).2, BrownRobinson.step_k]
    simp only [List.length_cons]
    omega

theorem BrownRobinson.run_sums {n : ℕ} (cs : List (Fin (n + 1) × Fin (n + 1)))
    (s : BrownRobinson (n + 1))
    (ha : Finset.univ.sum s.a_strategy_times_used = max 1 s.k)
    (hb : Finset.univ.sum s.b_strategy_times_used = max 1 s.k) :
    Finset.univ.sum (s.run cs).a_strategy_times_used = max 1 (s.k + cs.length) ∧
    Finset.univ.sum (s.run cs).b_strategy_times_used = max 1 (s.k + cs.length) := by
  induction cs generalizing s with
  | nil => exact ⟨by simpa using ha, by simpa using hb⟩
  | cons c cs ih =>
    simp only [BrownRobinson.run, BrownRobinson.next_eq_step]
    have hk := BrownRobinson.step_k s c.1 c.2
    have ha' : Finset.univ.sum (s.step c.1 c.2).2.a_strategy_times_used =
        max 1 (s.step c.1 c.2).2.k := by
      rw [BrownRobinson.step_sum_a, hk, ha]
      split <;> omega
    have hb' : Finset.univ.sum (s.step c.1 c.2).2.b_strategy_times_used =
        max 1 (s.step c.1 c.2).2.k := by
      rw [BrownRobinson.step_sum_b, hk, hb]
      split <;> omega
    obtain ⟨h1, h2⟩ := ih (s.step c.1 c.2).2 ha' hb'
    rw [hk] at h1 h2
    simp only [List.length_cons]
    constructor
    · rw [h1]; congr 1; omega
    · rw [h2]; congr 1; omega

theorem BrownRobinson.run_prices_monotone {n : ℕ}
    (cs : List (Fin (n + 1) × Fin (n + 1))) (s : BrownRobinson (n + 1)) :
    (s.run cs).min_high_price ≤ s.min_high_price ∧
    s.max_low_price ≤ (s.run cs).max_low_price := by
  induction cs generalizing s with
  | nil => exact ⟨le_refl _, le_refl _⟩
  | cons c cs ih =>
    simp only [BrownRobinson.run, BrownRobinson.next_eq_step]
    obtain ⟨h1, h2⟩ := ih (s.step c.1 c.2).2
    exact ⟨h1.trans (BrownRobinson.step_min_high_le s c.1 c.2),
      (BrownRobinson.step_max_low_ge s c.1 c.2).trans h2⟩

/-! ### Claim theorems for the Brown-Robinson solver -/

/-- A concrete 2×2 matrix whose row 0 and column 0 differ (entry (i, j)
holds 2i + j). -/
def gC2 : Fin 2 → Fin 2 → ℚ := fun i j => ((2 * (i : ℕ) + (j : ℕ) : ℕ) : ℚ)

/-- C2, counterexample: on the concrete matrix gC2, drawing index 0 for
both players, the constructor does NOT set A's cumulative scores to the
chosen row of the matrix with B's to the transposed chosen column (the
statement of the claim evaluates to False): the code uses the column for
A and the row for B instead, so A's vector holds 2 at index 1 where the
chosen row holds 1. -/
theorem claim_C2_counterexample :
    ((BrownRobinson.new gC2 0 0).a_scores = (fun j => gC2 0 j) ∧
       (BrownRobinson.new gC2 0 0).b_scores = (fun i => gC2 i 0)) = False ∧
    (BrownRobinson.new gC2 0 0).a_scores 1 = 2 ∧ gC2 0 1 = 1 := by
  refine ⟨eq_false ?_, ?_, ?_⟩
  · intro h
    have h1 := congrFun h.1 1
    simp only [BrownRobinson.new, gC2] at h1
    norm_num at h1
  · simp only [BrownRobinson.new, gC2]
    norm_num
  · simp only [gC2]
    norm_num

/-- C2 (amended): on iteration 1, after a random row index is drawn for
player A and a random column index for player B, A's cumulative-score
vector is set to the TRANSPOSE OF THE COLUMN of the payoff matrix at A's
chosen index, and B's cumulative-score vector is set to the ROW at B's
chosen index; the running price bounds are initialized from these vectors
and each chosen strategy gets use-count 1 at iteration count 0. -/
theorem claim_C2_amended {n : ℕ} (g : Fin (n + 1) → Fin (n + 1) → ℚ)
    (a b : Fin (n + 1)) :
    (BrownRobinson.new g a b).a_scores = (fun i => g i a) ∧
    (BrownRobinson.new g a b).b_scores = (fun j => g b j) ∧
    (BrownRobinson.new g a b).min_high_price = vecMax (fun i => g i a) ∧
    (BrownRobinson.new g a b).max_low_price = vecMin (fun j => g b j) ∧
    (BrownRobinson.new g a b).a_strategy_times_used a = 1 ∧
    (BrownRobinson.new g a b).b_strategy_times_used b = 1 ∧
    (BrownRobinson.new g a b).k = 0 := by
  refine ⟨rfl, rfl, rfl, rfl, ?_, ?_, rfl⟩ <;> simp [BrownRobinson.new]

/-- C3: from any state reachable from construction, the solver's next
always yields Some iteration record: the solver is an unbounded generator
and stopping is entirely the consumer's responsibility. -/
theorem claim_C3_never_none {n : ℕ} (g : Fin (n + 1) → Fin (n + 1) → ℚ)
    (a b : Fin (n + 1)) (cs : List (Fin (n + 1) × Fin (n + 1)))
    (ca cb : Fin (n + 1)) :
    ((BrownRobinson.run (BrownRobinson.new g a b) cs).next ca cb).isSome = true := by
  rw [BrownRobinson.next_eq_step]
  rfl

/-- C4: in every reachable state, the iteration count k equals the number
of step calls made since construction, and once at least one step has been
made each player's strategy use-count vector sums to exactly k. -/
theorem claim_C4_counts {n : ℕ} (g : Fin (n + 1) → Fin (n + 1) → ℚ)
    (a b : Fin (n + 1)) (cs : List (Fin (n + 1) × Fin (n + 1))) :
    (BrownRobinson.run (BrownRobinson.new g a b) cs).k = cs.length ∧
    (1 ≤ cs.length →
      Finset.univ.sum
          (BrownRobinson.run (BrownRobinson.new g a b) cs).a_strategy_times_used =
        cs.length ∧
      Finset.univ.sum
          (BrownRobinson.run (BrownRobinson.new g a b) cs).b_strategy_times_used =
        cs.length) := by
  have hk := BrownRobinson.run_k cs (BrownRobinson.new g a b)
  have hs := BrownRobinson.run_sums cs (BrownRobinson.new g a b)
    (by simp [BrownRobinson.new, sum_update_single])
    (by simp [BrownRobinson.new, sum_update_single])
  have hk0 : (BrownRobinson.new g a b).k = 0 := rfl
  rw [hk0] at hk hs
  refine ⟨by simpa using hk, fun h => ⟨?_, ?_⟩⟩
  · rw [hs.1]; omega
  · rw [hs.2]; omega

/-- The 1×1 zero matrix, used by concrete witnesses. -/
def g1 : Fin 1 → Fin 1 → ℚ := fun _ _ => 0

/-- C4, witness: a single step on the 1×1 zero matrix gives k = 1 and both
use-count sums equal to 1. -/
theorem claim_C4_witness :
    (BrownRobinson.run (BrownRobinson.new g1 0 0) [(0, 0)]).k = 1 ∧
    Finset.univ.sum
        (BrownRobinson.run (BrownRobinson.new g1 0 0)
          [(0, 0)]).a_strategy_times_used = 1 ∧
    Finset.univ.sum
        (BrownRobinson.run (BrownRobinson.new g1 0 0)
          [(0, 0)]).b_strategy_times_used = 1 :=
  ⟨(claim_C4_counts g1 0 0 [(0, 0)]).1,
   ((claim_C4_counts g1 0 0 [(0, 0)]).2 (by decide)).1,
   ((claim_C4_counts g1 0 0 [(0, 0)]).2 (by decide)).2⟩

/-- C5: across successive solver steps min_high_price is non-increasing
and max_low_price is non-decreasing; the epsilon in each yielded record
equals min_high_price - max_low_price of the state at that point, so the
reported epsilon is non-increasing from one record to the next and over
any number of further steps. -/
theorem claim_C5_epsilon_monotone {n : ℕ} (s : BrownRobinson (n + 1))
    (ca cb ca' cb' : Fin (n + 1)) :
    (s.step ca cb).2.min_high_price ≤ s.min_high_price ∧
    s.max_low_price ≤ (s.step ca cb).2.max_low_price ∧
    (s.step ca cb).1.epsilon =
      (s.step ca cb).2.min_high_price - (s.step ca cb).2.max_low_price ∧
    ((s.step ca cb).2.step ca' cb').1.epsilon ≤ (s.step ca cb).1.epsilon ∧
    ∀ cs : List (Fin (n + 1) × Fin (n + 1)),
      ((s.run cs).min_high_price ≤ s.min_high_price ∧
       s.max_low_price ≤ (s.run cs).max_low_price) := by
  refine ⟨BrownRobinson.step_min_high_le s ca cb, BrownRobinson.step_max_low_ge s ca cb,
    BrownRobinson.step_epsilon s ca cb, ?_, fun cs => BrownRobinson.run_prices_monotone cs s⟩
  rw [BrownRobinson.step_epsilon, BrownRobinson.step_epsilon]
  exact sub_le_sub (BrownRobinson.step_min_high_le _ ca' cb')
    (BrownRobinson.step_max_low_ge _ ca' cb')

/-- C6: in every reachable state, bounds() returns the pair (max over rows
of each row's minimum, min over columns of each column's maximum) of the
ORIGINAL matrix, independent of the running iteration state, and the lower
price never exceeds the upper price. -/
theorem claim_C6_bounds {n : ℕ} (g : Fin (n + 1) → Fin (n + 1) → ℚ)
    (a b : Fin (n + 1)) (cs : List (Fin (n + 1) × Fin (n + 1))) :
    (BrownRobinson.run (BrownRobinson.new g a b) cs).bounds =
      ((vecMax fun i => vecMin fun j => g i j),
       (vecMin fun j => vecMax fun i => g i j)) ∧
    (BrownRobinson.run (BrownRobinson.new g a b) cs).bounds.1 ≤
      (BrownRobinson.run (BrownRobinson.new g a b) cs).bounds.2 := by
  have hg : (BrownRobinson.run (BrownRobinson.new g a b) cs).game = g :=
    BrownRobinson.run_game (BrownRobinson.new g a b) cs
  constructor
  · unfold BrownRobinson.bounds
    rw [hg]
  · unfold BrownRobinson.bounds
    dsimp only
    rw [hg]
    exact maxmin_le_minmax g

/-- C8: constructing the solver fails exactly when the matrix is empty
(the gen_range draw over 0..nrows panics on an empty range, embedded as
the none outcome, so the solver never proceeds with an invalid matrix);
a non-square matrix is ruled out statically by the matrix type, as in the
source. -/
theorem claim_C8_construction (n : ℕ) (g : Fin n → Fin n → ℚ) (da db : ℕ) :
    BrownRobinson.try_new n g da db = none ↔ n = 0 := by
  cases n with
  | zero => simp [BrownRobinson.try_new]
  | succ m => simp [BrownRobinson.try_new]

/-! ### Claim theorems for the discretization driver -/

/-- C9: at each refinement step the driver computes dimension = n + 1 and
checks, BEFORE building the discretized matrix, that dimension * dimension
does not overflow the addressable usize range; a failed check is a fatal
panic (none) and in the successful case the built matrix has exactly
dimension n + 1 with entries H(i/n, j/n) — the size is never truncated or
wrapped. -/
theorem claim_C9_overflow_check (it : Iter) :
    it.current_game =
      if USIZE ≤ (it.n + 1) * (it.n + 1) then none
      else
        some (it.n + 1,
          fun (i j : ℕ) =>
            it.game.compute ((i : ℚ) / (it.n : ℚ)) ((j : ℚ) / (it.n : ℚ))) := by
  have h1 : it.n + 1 ≤ (it.n + 1) * (it.n + 1) :=
    Nat.le_mul_of_pos_right _ (Nat.succ_pos it.n)
  unfold Iter.current_game checked_add checked_mul
  by_cases hmul : (it.n + 1) * (it.n + 1) < USIZE
  · have hadd : it.n + 1 < USIZE := lt_of_le_of_lt h1 hmul
    rw [if_pos hadd]
    dsimp only
    rw [if_pos hmul, if_neg (by omega)]
  · by_cases hadd : it.n + 1 < USIZE
    · rw [if_pos hadd]
      dsimp only
      rw [if_neg hmul, if_pos (by omega)]
    · rw [if_neg hadd, if_pos (by omega)]

/-- C1 (amended): the driver yields the very first refinement step
unconditionally, and a later call yields end-of-sequence exactly when the
sliding window is NONEMPTY — it holds at least one delta, not necessarily
window_size of them — and the running sum of windowed deltas is at or
under accuracy (and the refinement counter does not overflow); on such a
stopping call only the refinement counter advances. -/
theorem claim_C1_amended (oracle : ℕ → DriverState) (it : Iter) :
    (it.next oracle = some (none, { it with n := it.n + 1 }) ↔
      (it.n + 1 < USIZE ∧ it.window ≠ [] ∧ it.sum_delta ≤ it.accuracy)) ∧
    (∀ g acc ws, ∃ st s', (Iter.new g acc ws).next oracle = some (some st, s')) := by
  constructor
  · unfold Iter.next checked_add
    by_cases hov : it.n + 1 < USIZE
    · rw [if_pos hov]
      dsimp only
      by_cases hcond : it.window = [] ∨ it.accuracy < it.sum_delta
      · rw [if_pos hcond]
        constructor
        · intro h
          exfalso
          rcases hprev : it.previous_price with _ | prev <;> rw [hprev] at h <;>
            dsimp only at h
          · simp at h
          · rcases hev : (if it.window.length = it.window_size then
                match it.window, it.sum_delta with
                | [], _ => none
                | w :: rest, sum_delta => some (rest, sum_delta - w.delta)
              else some (it.window, it.sum_delta)) with _ | ⟨win, sd⟩ <;>
              rw [hev] at h <;> simp at h
        · intro ⟨_, hne, hle⟩
          rcases hcond with h | h
          · exact absurd h hne
          · exact absurd hle (not_le.mpr h)
      · rw [if_neg hcond]
        push_neg at hcond
        exact ⟨fun _ => ⟨hov, hcond.1, hcond.2⟩, fun _ => rfl⟩
    · rw [if_neg hov]
      constructor
      · intro h
        exact absurd h (by simp)
      · intro ⟨h, _⟩
        exact absurd h hov
  · intro g acc ws
    refine ⟨⟨(oracle 2).x, (oracle 2).y, (oracle 2).price⟩,
      { Iter.new g acc ws with
          n := 2
          price := (oracle 2).price
          previous_price := some (oracle 2).price }, ?_⟩
    unfold Iter.next checked_add Iter.new
    norm_num [USIZE]

/-- The constant estimate sequence used by the C1 counterexample. -/
def c1Oracle : ℕ → DriverState := fun _ => ⟨0, 0, 0⟩

/-- The driver of the C1 counterexample: accuracy 0 and window_size 2. -/
def c1It0 : Iter := Iter.new ⟨0, 0, 0, 0, 0⟩ 0 2

/-- C1, counterexample: with window_size = 2 and accuracy 0, after two
produced steps the window holds exactly one delta — it is NOT full — yet
the third call already yields end-of-sequence (the recorded item is None):
the driver does not wait for the window to fill before stopping, refuting
the claim's stopping rule as stated. -/
theorem claim_C1_counterexample :
    (Iter.runState c1Oracle 2 c1It0).map
        (fun it => (it.window.length, it.window_size,
          (it.next c1Oracle).map (fun r => r.1.isNone))) =
      some (1, 2, some true) := by
  norm_num [Iter.runState, Iter.next, Iter.new, c1Oracle, c1It0, checked_add, USIZE]

/-! ### Claim theorems for the analytical solver -/

/-- The diagonal sign matrix with -1 in the last position and 1 elsewhere;
conjugating by it relates the augmented matrix of a transposed game to the
transpose of the augmented matrix. -/
def signFlip (n : ℕ) : Matrix (Fin (n + 1)) (Fin (n + 1)) ℚ :=
  Matrix.diagonal fun i => if i = Fin.last n then -1 else 1

theorem fin_eq_last_iff {n : ℕ} (i : Fin (n + 1)) :
    i = Fin.last n ↔ ¬(i : ℕ) < n := by
  rw [Fin.ext_iff]
  have := i.isLt
  simp only [Fin.val_last]
  omega

theorem augment_transpose_eq {n : ℕ} (M : Matrix (Fin n) (Fin n) ℚ) :
    augment M.transpose = signFlip n * (augment M).transpose * signFlip n := by
  ext i j
  rw [signFlip, Matrix.mul_diagonal, Matrix.diagonal_mul, Matrix.transpose_apply]
  unfold augment
  dsimp only [Matrix.of_apply]
  by_cases hi : (i : ℕ) < n <;> by_cases hj : (j : ℕ) < n <;>
    simp [dif_pos, dif_neg, hi, hj, fin_eq_last_iff, Matrix.transpose_apply]

theorem det_signFlip (n : ℕ) : (signFlip n).det = -1 := by
  unfold signFlip
  rw [Matrix.det_diagonal, Finset.prod_ite_eq' Finset.univ (Fin.last n) fun _ => (-1 : ℚ)]
  simp

theorem det_augment_transpose {n : ℕ} (M : Matrix (Fin n) (Fin n) ℚ) :
    (augment M.transpose).det = (augment M).det := by
  rw [augment_transpose_eq, Matrix.det_mul, Matrix.det_mul, Matrix.det_transpose,
    det_signFlip]
  ring

theorem solve_game_none_iff {n : ℕ} (M : Matrix (Fin n) (Fin n) ℚ) :
    solve_game M = none ↔ (augment M).det = 0 := by
  unfold solve_game solveLin
  by_cases h : (augment M).det = 0 <;> simp [h]

/-- C10: the augmented system built from the matrix is solvable exactly
when the one built from its transpose is (their augmented matrices have
equal determinants, being related by transposition and a sign-flip
conjugation), so the unreachable!() branch of solve_analytically is never
executed. -/
theorem claim_C10_unreachable {n : ℕ} (M : Matrix (Fin n) (Fin n) ℚ) :
    ((solve_game M.transpose).isSome ↔ (solve_game M).isSome) ∧
    solve_analytically M ≠ AnalyticResult.panicked := by
  have hiff : solve_game M.transpose = none ↔ solve_game M = none := by
    rw [solve_game_none_iff, solve_game_none_iff, det_augment_transpose]
  constructor
  · rw [← Option.not_isSome_iff_eq_none, ← Option.not_isSome_iff_eq_none] at hiff
    constructor
    · intro h
      by_contra hc
      exact (hiff.mpr (by simpa using hc)) (by simp [h])
    · intro h
      by_contra hc
      exact (hiff.mp (by simpa using hc)) (by simp [h])
  · unfold solve_analytically
    rcases h1 : solve_game M.transpose with _ | a <;>
      rcases h2 : solve_game M with _ | b
    · intro h
      exact AnalyticResult.noConfusion h
    · rw [hiff] at h1
      rw [h1] at h2
      exact Option.noConfusion h2
    · rw [← hiff] at h2
      rw [h2] at h1
      exact Option.noConfusion h1
    · intro h
      exact AnalyticResult.noConfusion h

/-- C7 (amended): solve_analytically yields the no-solution outcome
exactly when the augmented matrix is SINGULAR (zero determinant) — the
condition under which nalgebra's QR solve fails, even when the singular
system happens to admit solutions — and otherwise yields the pair of
length-(N+1) strategy vectors (whose last coordinate is the computed game
value by construction); the no-solution outcome is a normal result,
distinct from a crash. -/
theorem claim_C7_amended {n : ℕ} (M : Matrix (Fin n) (Fin n) ℚ) :
    (solve_analytically M = AnalyticResult.noSolution ↔ (augment M).det = 0) ∧
    ((augment M).det ≠ 0 ↔
      ∃ a b, solve_analytically M = AnalyticResult.solved a b) := by
  have hM := solve_game_none_iff M
  have hMt : solve_game M.transpose = none ↔ (augment M).det = 0 := by
    rw [solve_game_none_iff, det_augment_transpose]
  by_cases h : (augment M).det = 0
  · have h1 : solve_game M.transpose = none := hMt.mpr h
    have h2 : solve_game M = none := hM.mpr h
    unfold solve_analytically
    rw [h1, h2]
    constructor
    · simp [h]
    · constructor
      · intro hc
        exact absurd h hc
      · intro ⟨a, b, hab⟩
        exact AnalyticResult.noConfusion hab
  · rcases h1 : solve_game M.transpose with _ | a
    · exact absurd (hMt.mp h1) h
    · rcases h2 : solve_game M with _ | b
      · exact absurd (hM.mp h2) h
      · unfold solve_analytically
        rw [h1, h2]
        constructor
        · constructor
          · intro hc
            exact absurd (AnalyticResult.noConfusion hc) (fun f => f)
          · intro hd
            exact absurd hd h
        · exact ⟨fun _ => ⟨a, b, rfl⟩, fun _ => h⟩

/-- The 2×2 zero matrix: the counterexample game for C7. -/
def M7 : Matrix (Fin 2) (Fin 2) ℚ :=
  Matrix.of fun _ _ => 0

/-- C7, counterexample: for the 2×2 zero matrix the code yields the
no-solution outcome (its augmented matrix is singular, so the QR solve
fails), yet the augmented linear system DOES have a solution, exhibited
explicitly — refuting "returns None exactly when the augmented system has
no solution" as stated. -/
theorem claim_C7_counterexample :
    solve_analytically M7 = AnalyticResult.noSolution ∧
    (augment M7).mulVec (fun i => if i = 0 then 1 else 0) = unitLast 2 := by
  have hdet : (augment M7).det = 0 := by
    rw [Matrix.det_fin_three]
    simp [augment, M7]
  have hdetT : (augment M7.transpose).det = 0 := by
    rw [det_augment_transpose]
    exact hdet
  constructor
  · unfold solve_analytically
    rw [(solve_game_none_iff M7.transpose).mpr hdetT, (solve_game_none_iff M7).mpr hdet]
  · funext i
    fin_cases i <;>
      simp [Matrix.mulVec, Matrix.dotProduct, augment, M7, unitLast,
        Fin.sum_univ_three, Fin.last]

end GameTheoryLabs
